import Mathlib

/-!
Shallow embedding of the flute-trainer core (vnicolescu/flute-trainer).

The repository holds two variants of the app:
  * `src/flute-trainer/src/FluteTrainerApp.tsx` — the current variant: two
    pitch estimators (pitchy and YIN) combined per frame, a 50-cent
    tolerance, clarity threshold 0.3, and a `Sequencer` component driving
    the practice queue;
  * the older variant embedded at the end of
    `src/flute-trainer/src/components/ui/select.tsx` — a hand-rolled
    autocorrelation `detectPitch`, 30-cent tolerance, same `Sequencer`.

Floating-point numbers of the source are embedded as real numbers; the
per-frame verdicts that involve `Math.log2` / `Math.sqrt` are therefore
stated as propositions over ℝ.  Definitions come first, then the theorems.
-/

namespace FluteTrainer

/-! ## Definitions: note catalog -/

/-- The note catalog `NOTE_MIDI` of `FluteTrainerApp.tsx` (lines 26–35);
the identical table is inlined in `noteToFreq` of the older variant. -/
def NOTE_MIDI : List (String × ℕ) :=
  [("C4", 60), ("D4", 62), ("E4", 64), ("F4", 65),
   ("G4", 67), ("A4", 69), ("B4", 71), ("C5", 72)]

/-- `NOTES = Object.keys(FINGERINGS)` (line 59): the eight catalog
identifiers, in catalog order. -/
def NOTES : List String := ["C4", "D4", "E4", "F4", "G4", "A4", "B4", "C5"]

/-- `noteToFreq` (FluteTrainerApp.tsx lines 397–401):
`midi = NOTE_MIDI[note] || 69` (no catalog value is zero, so the JS `||`
is exactly a default for a missing key), then `440 * 2^((midi-69)/12)`. -/
noncomputable def noteToFreq (note : String) : ℝ :=
  let A4 : ℝ := 440
  let midi : ℕ := (NOTE_MIDI.lookup note).getD 69
  A4 * (2 : ℝ) ^ (((midi : ℝ) - 69) / 12)

/-! ## Definitions: the Sequencer (FluteTrainerApp.tsx lines 271–297)

`Sequencer` keeps `queue : string[]` and `currentIndex : number`; its parent
`FluteTrainerApp` keeps the `running` flag, cleared by `handleComplete`
(the `onComplete` callback).  The session being `active` is `running = true`;
completion clears `running`.  The random draw
`NOTES[Math.floor(Math.random() * NOTES.length)]` is embedded by an oracle
`pick : ℕ → Fin NOTES.length` giving the index drawn for each queue slot. -/

structure SequencerState where
  queue : List String
  currentIndex : ℕ
  running : Bool
  deriving DecidableEq, Repr

/-- The queue built on start (line 278):
`Array.from({length}, () => NOTES[Math.floor(Math.random() * NOTES.length)])`. -/
def mkQueue (length : ℕ) (pick : ℕ → Fin NOTES.length) : List String :=
  (List.range length).map fun i => NOTES.get (pick i)

/-- The start effect (lines 276–281): build the queue, set `currentIndex = 0`;
`running` is true (the effect only runs while `running`). -/
def startSequencer (length : ℕ) (pick : ℕ → Fin NOTES.length) : SequencerState :=
  { queue := mkQueue length pick, currentIndex := 0, running := true }

/-- `queue[currentIndex]` (line 292); JS `undefined` out of range is `none`. -/
def currentNote (s : SequencerState) : Option String := s.queue.get? s.currentIndex

/-- `handlePitchMatched` (lines 283–290) together with the parent's
`onComplete = handleComplete` (lines 345–348), which clears `running`:
if `currentIndex + 1 === queue.length` fire `onComplete()` (no index change),
else `setCurrentIndex(i => i + 1)`.  The "Next Note" skip button (line 328)
calls the same function. -/
def handlePitchMatched (s : SequencerState) : SequencerState :=
  if s.currentIndex + 1 = s.queue.length then { s with running := false }
  else { s with currentIndex := s.currentIndex + 1 }

/-- A concrete two-note sequencer state used by witnesses. -/
def twoNoteState : SequencerState :=
  { queue := ["C4", "D4"], currentIndex := 0, running := true }

/-! ## Definitions: per-frame pitch pipeline (FluteTrainerApp.tsx lines 200–228) -/

/-- The estimator combination (lines 210–216): `detectedPitch` is the pitchy
frequency when it is present (JS-truthy) and its clarity strictly exceeds
0.3, else the YIN frequency when it is present and strictly inside
(80, 2000), else `null`. -/
noncomputable def detectedPitch (pitchyFreq : Option ℝ) (clarity : ℝ)
    (yinFreq : Option ℝ) : Option ℝ :=
  if pitchyFreq.isSome = true ∧ clarity > 0.3 then pitchyFreq
  else
    match yinFreq with
    | some y => if y > 80 ∧ y < 2000 then some y else none
    | none => none

/-- The cents deviation (line 221): `1200 * Math.log2(detectedPitch / freqTarget)`. -/
noncomputable def cents (detected target : ℝ) : ℝ :=
  1200 * Real.logb 2 (detected / target)

/-- The per-frame match condition (lines 219–226): with a target set, the
frame fires `setPitchStatus("matched")` and the `onPitchMatch` callback iff
some pitch was detected and `Math.abs(cents) < 50`; there is no debouncing
state carried between frames. -/
def frameMatches (pitchyFreq : Option ℝ) (clarity : ℝ) (yinFreq : Option ℝ)
    (targetFreq : ℝ) : Prop :=
  ∃ f, detectedPitch pitchyFreq clarity yinFreq = some f ∧
    |cents f targetFreq| < 50

/-! ## Definitions: StabilityFilter (modelled from the spec) -/

/-- Modelled from the spec: the StabilityFilter component (§4.4) is missing
from the repository's source — the code's pipeline fires the match callback
every frame — so its `observe` is taken from the spec's words: increment an
internal counter when `onPitch` is true, reset it to zero when false, and
report "confirmed" (`true`) once the count of consecutive on-pitch frames
reaches the required threshold, otherwise "pending" (`false`). -/
def observe (required counter : ℕ) (onPitch : Bool) : ℕ × Bool :=
  match onPitch with
  | true => (counter + 1, decide (required ≤ counter + 1))
  | false => (0, false)

/-- Modelled from the spec: the CaptureLoop (§4.6) threads the filter state
through the frame sequence and invokes `reset()` after a confirmation is
consumed, so confirmations are never double-counted. -/
def runFilter (required : ℕ) : ℕ → List Bool → List Bool
  | _, [] => []
  | c, b :: rest =>
    let r := observe required c b
    r.2 :: runFilter required (if r.2 then 0 else r.1) rest

/-! ## Definitions: autocorrelation estimator (select.tsx lines 327–347) -/

/-- The RMS noise gate of the older variant's `detectPitch` (lines 330–331):
`Math.sqrt(buffer.reduce((s, v) => s + v * v, 0) / buffer.length)`. -/
noncomputable def rms (buffer : List ℝ) : ℝ :=
  Real.sqrt ((buffer.foldl (fun s v => s + v * v) 0) / (buffer.length : ℝ))

/-- One lag's normalized autocorrelation (lines 335–339):
`(Σ_{i < len - offset} buffer[i] * buffer[i + offset]) / (len - offset)`. -/
noncomputable def correlationAt (buffer : List ℝ) (offset : ℕ) : ℝ :=
  (∑ i ∈ Finset.range (buffer.length - offset),
      buffer.getD i 0 * buffer.getD (i + offset) 0) /
    ((buffer.length : ℝ) - (offset : ℝ))

/-- One step of the best-lag scan (lines 340–343): take the offset when its
correlation exceeds both 0.9 and the best seen so far. -/
noncomputable def scanStep (buffer : List ℝ) (best : ℤ × ℝ) (offset : ℕ) : ℤ × ℝ :=
  if correlationAt buffer offset > 0.9 ∧ correlationAt buffer offset > best.2
  then ((offset : ℤ), correlationAt buffer offset) else best

/-- The scan over the candidate lags 20, …, 1023 (line 334), starting from
`bestOffset = -1`, `bestCorrelation = 0`. -/
noncomputable def bestLag (buffer : List ℝ) : ℤ × ℝ :=
  (List.range' 20 1004).foldl (scanStep buffer) (-1, 0)

/-- `detectPitch` of the older variant (select.tsx lines 327–347): gate on
RMS, scan the lags, return `sampleRate / bestOffset` or `null`. -/
noncomputable def detectPitch (buffer : List ℝ) (sampleRate : ℝ) : Option ℝ :=
  if rms buffer < 0.01 then none
  else if (bestLag buffer).1 = -1 then none
  else some (sampleRate / ((bestLag buffer).1 : ℝ))

/-! ## Definitions: session start and capture failure
(FluteTrainerApp.tsx lines 182–233 and 336–348) -/

inductive PitchStatus where
  | idle
  | listening
  | matched
  deriving DecidableEq, Repr

/-- A capture-acquisition failure: `getUserMedia` rejecting with permission
denied or no input device; the rejection lands in `setup`'s try/catch. -/
inductive CaptureError where
  | permissionDenied
  | noDevice
  deriving DecidableEq, Repr

/-- The audio-engine state touched by `setup` (lines 182–233): the
listening-status signal `pitchStatus` (initially "idle", line 124), whether
the `detect` loop was started, and the console error log. -/
structure EngineState where
  pitchStatus : PitchStatus
  detecting : Bool
  consoleErrors : List CaptureError
  deriving DecidableEq, Repr

/-- The surrounding app state: `running` (line 338) is the session flag, set
by `handleStart` and cleared only by `handleComplete`. -/
structure AppState where
  running : Bool
  engine : EngineState
  deriving DecidableEq, Repr

def initialApp : AppState :=
  { running := false,
    engine := { pitchStatus := .idle, detecting := false, consoleErrors := [] } }

/-- `handleStart` (lines 341–344): set `running` to true. -/
def handleStart (a : AppState) : AppState := { a with running := true }

/-- `setup` (lines 182–233): on a successful acquisition the analyser is
connected, the status becomes "listening" and the `detect` loop starts; a
rejection is caught by the `catch` block (lines 230–232), which only logs
`"Audio setup error"` — no state changes, no retry is scheduled. -/
def setup (acquisition : Except CaptureError Unit) (a : AppState) : AppState :=
  match acquisition with
  | .ok _ =>
    { a with engine :=
        { a.engine with pitchStatus := .listening, detecting := true } }
  | .error e =>
    { a with engine :=
        { a.engine with consoleErrors := a.engine.consoleErrors ++ [e] } }

/-! ## Theorems: note catalog -/

lemma noteToFreq_eq (note : String) :
    noteToFreq note =
      440 * (2 : ℝ) ^ ((((NOTE_MIDI.lookup note).getD 69 : ℝ) - 69) / 12) := rfl

lemma two_rpow_strictMono : StrictMono fun x : ℝ => (2 : ℝ) ^ x := fun _ _ h =>
  Real.rpow_lt_rpow_left_iff (by norm_num) |>.mpr h

lemma lookup_catalog (p : String × ℕ) (hp : p ∈ NOTE_MIDI) :
    (NOTE_MIDI.lookup p.1).getD 69 = p.2 := by
  fin_cases hp <;> rfl

/-- C3: for every note of the catalog, `noteToFreq` returns exactly
`440 * 2 ^ ((midi - 69) / 12)` for that note's MIDI number, and the
frequency is strictly increasing in the MIDI number across the catalog. -/
theorem noteToFreq_catalog (p q : String × ℕ)
    (hp : p ∈ NOTE_MIDI) (hq : q ∈ NOTE_MIDI) :
    noteToFreq p.1 = 440 * (2 : ℝ) ^ (((p.2 : ℝ) - 69) / 12) ∧
    (p.2 < q.2 → noteToFreq p.1 < noteToFreq q.1) := by
  constructor
  · rw [noteToFreq_eq, lookup_catalog p hp]
  · intro hlt
    rw [noteToFreq_eq, noteToFreq_eq, lookup_catalog p hp, lookup_catalog q hq]
    have hexp : ((p.2 : ℝ) - 69) / 12 < ((q.2 : ℝ) - 69) / 12 := by
      have : (p.2 : ℝ) < (q.2 : ℝ) := by exact_mod_cast hlt
      have hsub : (p.2 : ℝ) - 69 < (q.2 : ℝ) - 69 := by linarith
      exact div_lt_div_of_pos_right hsub (by norm_num)
    exact mul_lt_mul_of_pos_left (two_rpow_strictMono hexp) (by norm_num)

/-- Witness for C3: C4 (MIDI 60) and C5 (MIDI 72) are in the catalog, C4
reproduces the formula and its frequency is below that of C5. -/
theorem noteToFreq_catalog_witness :
    noteToFreq "C4" = 440 * (2 : ℝ) ^ ((((60 : ℕ) : ℝ) - 69) / 12) ∧
    ((60 : ℕ) < 72 → noteToFreq "C4" < noteToFreq "C5") :=
  noteToFreq_catalog ("C4", 60) ("C5", 72) (by decide) (by decide)

/-- C10: `noteToFreq` is total over all strings; an identifier outside the
catalog silently falls back to MIDI 69 (`NOTE_MIDI[note] || 69`) and the
result is exactly 440 Hz — no unknown-note error is signalled. -/
theorem noteToFreq_unknown (s : String) (h : s ∉ NOTES) : noteToFreq s = 440 := by
  have hl : NOTE_MIDI.lookup s = none := by
    simp only [NOTES, List.mem_cons, List.not_mem_nil, not_or, or_false] at h
    obtain ⟨h1, h2, h3, h4, h5, h6, h7, h8⟩ := h
    simp [NOTE_MIDI, List.lookup, beq_eq_false_iff_ne.mpr h1,
      beq_eq_false_iff_ne.mpr h2, beq_eq_false_iff_ne.mpr h3,
      beq_eq_false_iff_ne.mpr h4, beq_eq_false_iff_ne.mpr h5,
      beq_eq_false_iff_ne.mpr h6, beq_eq_false_iff_ne.mpr h7,
      beq_eq_false_iff_ne.mpr h8]
  rw [noteToFreq_eq, hl]
  norm_num

/-- Witness for C10: the unknown identifier "Z9" maps to 440 Hz. -/
theorem noteToFreq_unknown_witness : noteToFreq "Z9" = 440 :=
  noteToFreq_unknown "Z9" (by decide)

/-! ## Theorems: the Sequencer -/

/-- C6: starting with a requested length N (1 to 5) yields a queue of exactly
N notes, all from the catalog `NOTES`, with `currentIndex = 0` and the first
queued note as the current target. -/
theorem startSequencer_spec (length : ℕ) (pick : ℕ → Fin NOTES.length)
    (h1 : 1 ≤ length) (h5 : length ≤ 5) :
    (startSequencer length pick).queue.length = length ∧
    (∀ n ∈ (startSequencer length pick).queue, n ∈ NOTES) ∧
    (startSequencer length pick).currentIndex = 0 ∧
    (∃ first, (startSequencer length pick).queue.head? = some first ∧
      currentNote (startSequencer length pick) = some first) := by
  refine ⟨by simp [startSequencer, mkQueue], ?_, rfl, ?_⟩
  · intro n hn
    simp only [startSequencer, mkQueue, List.mem_map] at hn
    obtain ⟨i, -, rfl⟩ := hn
    exact List.get_mem NOTES (pick i).1 (pick i).2
  · have hne : (startSequencer length pick).queue ≠ [] := by
      have : (startSequencer length pick).queue.length = length := by
        simp [startSequencer, mkQueue]
      intro hemp
      rw [hemp] at this
      simp at this
      omega
    obtain ⟨first, rest, hq⟩ := List.exists_cons_of_ne_nil hne
    exact ⟨first, by simp [hq], by simp [currentNote, startSequencer] at hq ⊢; simp [hq]⟩

/-- Witness for C6: a length-3 session drawing the first catalog note each
time. -/
theorem startSequencer_spec_witness :
    (startSequencer 3 fun _ => ⟨0, by norm_num [NOTES]⟩).queue.length = 3 ∧
    (∀ n ∈ (startSequencer 3 fun _ => ⟨0, by norm_num [NOTES]⟩).queue, n ∈ NOTES) ∧
    (startSequencer 3 fun _ => ⟨0, by norm_num [NOTES]⟩).currentIndex = 0 ∧
    (∃ first,
      (startSequencer 3 fun _ => ⟨0, by norm_num [NOTES]⟩).queue.head? = some first ∧
      currentNote (startSequencer 3 fun _ => ⟨0, by norm_num [NOTES]⟩) = some first) :=
  startSequencer_spec 3 (fun _ => ⟨0, by norm_num [NOTES]⟩) (by norm_num) (by norm_num)

lemma handlePitchMatched_last (s : SequencerState)
    (h : s.currentIndex + 1 = s.queue.length) :
    handlePitchMatched s = { s with running := false } := by
  unfold handlePitchMatched
  rw [if_pos h]

lemma handlePitchMatched_not_last (s : SequencerState)
    (h : s.currentIndex + 1 ≠ s.queue.length) :
    handlePitchMatched s = { s with currentIndex := s.currentIndex + 1 } := by
  unfold handlePitchMatched
  rw [if_neg h]

lemma handlePitchMatched_iterate (k : ℕ) :
    ∀ s : SequencerState, s.currentIndex + k < s.queue.length →
      handlePitchMatched^[k] s = { s with currentIndex := s.currentIndex + k } := by
  induction k with
  | zero => intro s _; simp
  | succ n ih =>
    intro s h
    rw [Function.iterate_succ_apply,
      handlePitchMatched_not_last s (by omega),
      ih { s with currentIndex := s.currentIndex + 1 } (by simp; omega)]
    simp [Nat.add_assoc, Nat.add_comm 1 n]

/-- C7: in an active session with a non-empty queue and an in-range index, a
confirmed match (the skip button calls the same `handlePitchMatched`)
completes the session when the index is the last one, and otherwise bumps the
index by exactly one, keeps the session active, and makes the next queued
note the current target; the N-th match on a freshly started length-N
session completes it. -/
theorem handlePitchMatched_spec (s : SequencerState)
    (hrun : s.running = true) (hne : s.queue ≠ [])
    (hidx : s.currentIndex < s.queue.length) :
    (s.currentIndex = s.queue.length - 1 →
      (handlePitchMatched s).running = false ∧
      (handlePitchMatched s).currentIndex = s.currentIndex) ∧
    (s.currentIndex ≠ s.queue.length - 1 →
      (handlePitchMatched s).running = true ∧
      (handlePitchMatched s).currentIndex = s.currentIndex + 1 ∧
      currentNote (handlePitchMatched s) = s.queue.get? (s.currentIndex + 1) ∧
      (currentNote (handlePitchMatched s)).isSome = true) ∧
    (∀ len : ℕ, ∀ pick : ℕ → Fin NOTES.length, 1 ≤ len →
      (handlePitchMatched^[len] (startSequencer len pick)).running = false) := by
  have hqpos : 0 < s.queue.length := List.length_pos.mpr hne
  refine ⟨?_, ?_, ?_⟩
  · intro hlast
    rw [handlePitchMatched_last s (by omega)]
    exact ⟨rfl, rfl⟩
  · intro hnotlast
    rw [handlePitchMatched_not_last s (by omega)]
    refine ⟨hrun, rfl, rfl, ?_⟩
    simp only [currentNote, List.get?_eq_getElem?]
    rw [List.getElem?_eq_getElem (by omega)]
    rfl
  · intro len pick hlen
    obtain ⟨n, rfl⟩ : ∃ n, len = n + 1 := ⟨len - 1, by omega⟩
    have hq : (startSequencer (n + 1) pick).queue.length = n + 1 := by
      simp [startSequencer, mkQueue]
    have hiter := handlePitchMatched_iterate n (startSequencer (n + 1) pick)
      (by rw [hq]; show 0 + n < n + 1; omega)
    rw [Function.iterate_succ_apply', hiter, handlePitchMatched_last]
    show 0 + n + 1 = (startSequencer (n + 1) pick).queue.length
    rw [hq]
    omega

/-- Witness for C7: a two-note active session at index 0; the general
components are inherited at that concrete state. -/
theorem handlePitchMatched_spec_witness :
    (twoNoteState.currentIndex = twoNoteState.queue.length - 1 →
      (handlePitchMatched twoNoteState).running = false ∧
      (handlePitchMatched twoNoteState).currentIndex = twoNoteState.currentIndex) ∧
    (twoNoteState.currentIndex ≠ twoNoteState.queue.length - 1 →
      (handlePitchMatched twoNoteState).running = true ∧
      (handlePitchMatched twoNoteState).currentIndex = twoNoteState.currentIndex + 1 ∧
      currentNote (handlePitchMatched twoNoteState) =
        twoNoteState.queue.get? (twoNoteState.currentIndex + 1) ∧
      (currentNote (handlePitchMatched twoNoteState)).isSome = true) ∧
    (∀ len : ℕ, ∀ pick : ℕ → Fin NOTES.length, 1 ≤ len →
      (handlePitchMatched^[len] (startSequencer len pick)).running = false) :=
  handlePitchMatched_spec twoNoteState rfl (by decide) (by decide)

lemma step_keeps_bounds (s : SequencerState)
    (h : s.currentIndex < s.queue.length) :
    (handlePitchMatched s).currentIndex < (handlePitchMatched s).queue.length ∧
    (handlePitchMatched s).queue = s.queue := by
  by_cases hc : s.currentIndex + 1 = s.queue.length
  · rw [handlePitchMatched_last s hc]; exact ⟨h, rfl⟩
  · rw [handlePitchMatched_not_last s hc]; exact ⟨by simp; omega, rfl⟩

lemma iterate_keeps_bounds (k : ℕ) :
    ∀ s : SequencerState, s.currentIndex < s.queue.length →
      (handlePitchMatched^[k] s).currentIndex < (handlePitchMatched^[k] s).queue.length ∧
      (handlePitchMatched^[k] s).queue = s.queue := by
  induction k with
  | zero => intro s h; exact ⟨h, rfl⟩
  | succ n ih =>
    intro s h
    rw [Function.iterate_succ_apply]
    obtain ⟨h1, h2⟩ := step_keeps_bounds s h
    obtain ⟨h3, h4⟩ := ih (handlePitchMatched s) h1
    exact ⟨h3, h4.trans h2⟩

lemma mem_mkQueue (len : ℕ) (pick : ℕ → Fin NOTES.length) (n : String)
    (h : n ∈ mkQueue len pick) : n ∈ NOTES := by
  simp only [mkQueue, List.mem_map] at h
  obtain ⟨i, -, hi⟩ := h
  exact hi ▸ List.get_mem NOTES (pick i).1 (pick i).2

/-- C9 (implicit invariant): however many match confirmations are applied to
a freshly started session of length N ≥ 1, the current index stays strictly
below N (the completing confirmation never increments it), the queue itself
never changes, and the displayed current note is always one of the queued
catalog notes. -/
theorem currentIndex_invariant (k len : ℕ) (pick : ℕ → Fin NOTES.length)
    (hlen : 1 ≤ len) :
    (handlePitchMatched^[k] (startSequencer len pick)).currentIndex < len ∧
    (handlePitchMatched^[k] (startSequencer len pick)).queue = mkQueue len pick ∧
    (∃ n, currentNote (handlePitchMatched^[k] (startSequencer len pick)) = some n ∧
      n ∈ (handlePitchMatched^[k] (startSequencer len pick)).queue ∧ n ∈ NOTES) ∧
    (∀ s : SequencerState, s.currentIndex + 1 = s.queue.length →
      (handlePitchMatched s).currentIndex = s.currentIndex) := by
  have hq : (startSequencer len pick).queue.length = len := by
    simp [startSequencer, mkQueue]
  have hstart : (startSequencer len pick).currentIndex <
      (startSequencer len pick).queue.length := by
    rw [hq]; exact hlen
  obtain ⟨hbound, hqueue⟩ := iterate_keeps_bounds k (startSequencer len pick) hstart
  have hbound' : (handlePitchMatched^[k] (startSequencer len pick)).currentIndex < len := by
    rw [hqueue, hq] at hbound
    exact hbound
  refine ⟨hbound', hqueue, ?_, ?_⟩
  · have hlt : (handlePitchMatched^[k] (startSequencer len pick)).currentIndex <
        (handlePitchMatched^[k] (startSequencer len pick)).queue.length := by
      rw [hqueue, hq]
      exact hbound'
    obtain ⟨x, hx⟩ : ∃ x,
        currentNote (handlePitchMatched^[k] (startSequencer len pick)) = some x := by
      simp only [currentNote, List.get?_eq_getElem?]
      exact ⟨_, List.getElem?_eq_getElem hlt⟩
    have hxq : x ∈ (handlePitchMatched^[k] (startSequencer len pick)).queue := by
      have := hx
      simp only [currentNote] at this
      exact List.get?_mem this
    refine ⟨x, hx, hxq, mem_mkQueue len pick x ?_⟩
    have hxq2 := hxq
    rw [hqueue] at hxq2
    exact hxq2
  · intro s hs
    rw [handlePitchMatched_last s hs]

/-- Witness for C9: five confirmations on a length-2 session keep the index
below 2 and the displayed note in the queue. -/
theorem currentIndex_invariant_witness :
    (handlePitchMatched^[5]
      (startSequencer 2 fun _ => ⟨1, by norm_num [NOTES]⟩)).currentIndex < 2 ∧
    (handlePitchMatched^[5] (startSequencer 2 fun _ => ⟨1, by norm_num [NOTES]⟩)).queue =
      mkQueue 2 (fun _ => ⟨1, by norm_num [NOTES]⟩) ∧
    (∃ n, currentNote (handlePitchMatched^[5]
        (startSequencer 2 fun _ => ⟨1, by norm_num [NOTES]⟩)) = some n ∧
      n ∈ (handlePitchMatched^[5]
        (startSequencer 2 fun _ => ⟨1, by norm_num [NOTES]⟩)).queue ∧ n ∈ NOTES) ∧
    (∀ s : SequencerState, s.currentIndex + 1 = s.queue.length →
      (handlePitchMatched s).currentIndex = s.currentIndex) :=
  currentIndex_invariant 5 2 (fun _ => ⟨1, by norm_num [NOTES]⟩) (by norm_num)

/-! ## Theorems: per-frame pipeline and stability filter -/

lemma detectedPitch_clarity (f c : ℝ) (y : Option ℝ) (h : c > 0.3) :
    detectedPitch (some f) c y = some f := by
  unfold detectedPitch
  rw [if_pos ⟨rfl, h⟩]

lemma detectedPitch_fallback (p : Option ℝ) (c : ℝ) (y : Option ℝ)
    (h : ¬ (p.isSome = true ∧ c > 0.3)) :
    detectedPitch p c y =
      match y with
      | some v => if v > 80 ∧ v < 2000 then some v else none
      | none => none := by
  unfold detectedPitch
  rw [if_neg h]

/-- C1: the stability filter (modelled from the spec; the code has no such
filter) increments its counter on each on-pitch frame, resets it to zero on
any other frame, and reports "confirmed" exactly when the consecutive count
reaches the required threshold; with required count 3 the sequence
[T, T, T, T] confirms exactly once — on the 3rd frame — and
[T, T, F, T, T, T] only on the final frame of the last run of three.  In the
code's actual pipeline the match callback fires on every single frame whose
detected pitch lies within the 50-cent tolerance. -/
theorem stabilityFilter_spec :
    (∀ required counter : ℕ, observe required counter false = (0, false)) ∧
    (∀ required counter : ℕ, (observe required counter true).1 = counter + 1) ∧
    (∀ required counter : ℕ,
      ((observe required counter true).2 = true ↔ required ≤ counter + 1)) ∧
    runFilter 3 0 [true, true, true, true] = [false, false, true, false] ∧
    runFilter 3 0 [true, true, false, true, true, true] =
      [false, false, false, false, false, true] ∧
    (∀ (p : Option ℝ) (c : ℝ) (y : Option ℝ) (t f : ℝ),
      detectedPitch p c y = some f →
      (frameMatches p c y t ↔ |cents f t| < 50)) := by
  refine ⟨fun _ _ => rfl, fun _ _ => rfl,
    fun req c => by simp [observe], by decide, by decide, ?_⟩
  intro p c y t f hf
  constructor
  · rintro ⟨g, hg, hgc⟩
    have : f = g := Option.some.inj (hf.symm.trans hg)
    rw [this]
    exact hgc
  · intro h
    exact ⟨f, hf, h⟩

/-- C2: the on-pitch verdict for a single pitch estimate (frequency plus
clarity, no fallback candidate): with sufficient clarity the verdict is true
exactly when |1200·log2(f/target)| is strictly below the 50-cent tolerance;
a deviation of exactly 50 cents is rejected, an absent frequency is
rejected, and clarity below the 0.3 minimum is rejected. -/
theorem matchJudge_spec :
    (∀ f c t : ℝ, c > 0.3 →
      (frameMatches (some f) c none t ↔ |1200 * Real.logb 2 (f / t)| < 50)) ∧
    (∀ f c t : ℝ, |1200 * Real.logb 2 (f / t)| = 50 →
      ¬ frameMatches (some f) c none t) ∧
    (∀ c t : ℝ, ¬ frameMatches none c none t) ∧
    (∀ f c t : ℝ, c < 0.3 → ¬ frameMatches (some f) c none t) := by
  have habs : ∀ (p : Option ℝ) (c : ℝ) (h : ¬ (p.isSome = true ∧ c > 0.3))
      (t : ℝ), ¬ frameMatches p c none t := by
    rintro p c h t ⟨g, hg, -⟩
    rw [detectedPitch_fallback p c none h] at hg
    exact Option.noConfusion hg
  refine ⟨?_, ?_, ?_, ?_⟩
  · intro f c t hc
    constructor
    · rintro ⟨g, hg, hgc⟩
      rw [detectedPitch_clarity f c none hc] at hg
      have : g = f := Option.some.inj hg.symm
      rw [this] at hgc
      exact hgc
    · intro h
      exact ⟨f, detectedPitch_clarity f c none hc, h⟩
  · rintro f c t hb ⟨g, hg, hgc⟩
    by_cases hc : c > 0.3
    · rw [detectedPitch_clarity f c none hc] at hg
      have : g = f := Option.some.inj hg.symm
      rw [this] at hgc
      have : |cents f t| = 50 := hb
      simp only [cents] at hgc
      linarith [hgc, hb.le, hb.ge]
    · exact habs (some f) c (by simp [hc]) t ⟨g, hg, hgc⟩
  · intro c t
    exact habs none c (by simp) t
  · intro f c t hc
    exact habs (some f) c (by simp; linarith) t

/-- Witness for C2: a perfectly centred estimate (440 Hz against a 440 Hz
target, clarity 1) is on pitch; an estimate exactly 50 cents sharp
(440·2^(50/1200) Hz) is rejected. -/
theorem matchJudge_spec_witness :
    frameMatches (some 440) 1 none 440 ∧
    ¬ frameMatches (some (440 * (2 : ℝ) ^ ((50 : ℝ) / 1200))) 1 none 440 := by
  have h2 : (0 : ℝ) < 2 := by norm_num
  have hne : (2 : ℝ) ≠ 1 := by norm_num
  constructor
  · refine (matchJudge_spec.1 440 1 440 (by norm_num)).mpr ?_
    rw [div_self (by norm_num : (440 : ℝ) ≠ 0)]
    simp [Real.logb_one]
  · refine matchJudge_spec.2.1 _ 1 440 ?_
    rw [mul_div_cancel_left₀ _ (by norm_num : (440 : ℝ) ≠ 0),
      Real.logb_rpow h2 hne, abs_of_nonneg (by norm_num)]
    norm_num

/-- C4: the combination of the two estimators is a deterministic function
of their outputs with fixed precedence: the pitchy frequency when present
with clarity strictly above 0.3; otherwise the YIN frequency when strictly
inside the supported band (80, 2000); otherwise no pitch. -/
theorem detectedPitch_precedence :
    (∀ (f c : ℝ) (y : Option ℝ), c > 0.3 → detectedPitch (some f) c y = some f) ∧
    (∀ (p : Option ℝ) (c y : ℝ), ¬ (p.isSome = true ∧ c > 0.3) →
      y > 80 → y < 2000 → detectedPitch p c (some y) = some y) ∧
    (∀ (p : Option ℝ) (c y : ℝ), ¬ (p.isSome = true ∧ c > 0.3) →
      ¬ (y > 80 ∧ y < 2000) → detectedPitch p c (some y) = none) ∧
    (∀ (p : Option ℝ) (c : ℝ), ¬ (p.isSome = true ∧ c > 0.3) →
      detectedPitch p c none = none) := by
  refine ⟨fun f c y h => detectedPitch_clarity f c y h, ?_, ?_, ?_⟩
  · intro p c y hp h80 h2000
    rw [detectedPitch_fallback p c (some y) hp]
    exact if_pos ⟨h80, h2000⟩
  · intro p c y hp hband
    rw [detectedPitch_fallback p c (some y) hp]
    exact if_neg hband
  · intro p c hp
    rw [detectedPitch_fallback p c none hp]

/-- Witness for C4: clarity 0.5 keeps the pitchy value 500; at the clarity
threshold exactly (0.3) the in-band YIN value 100 wins; an out-of-band YIN
value 3000 yields no pitch. -/
theorem detectedPitch_precedence_witness :
    detectedPitch (some 500) 0.5 (some 100) = some 500 ∧
    detectedPitch (some 500) 0.3 (some 100) = some 100 ∧
    detectedPitch none 0.9 (some 3000) = none ∧
    detectedPitch none 0.9 none = none := by
  have hnotc : ¬ ((some (500 : ℝ)).isSome = true ∧ (0.3 : ℝ) > 0.3) := by
    simp
  have hnone : ¬ ((none : Option ℝ).isSome = true ∧ (0.9 : ℝ) > 0.3) := by
    simp
  exact ⟨detectedPitch_precedence.1 500 0.5 (some 100) (by norm_num),
    detectedPitch_precedence.2.1 (some 500) 0.3 100 hnotc (by norm_num) (by norm_num),
    detectedPitch_precedence.2.2.1 none 0.9 3000 hnone (by norm_num),
    detectedPitch_precedence.2.2.2 none 0.9 hnone⟩

/-! ## Theorems: capture failure (C8) -/

/-! ## Theorems: autocorrelation estimator (C5) -/

lemma scanStep_pos (buffer : List ℝ) (best : ℤ × ℝ) (offset : ℕ)
    (h : correlationAt buffer offset > 0.9 ∧ correlationAt buffer offset > best.2) :
    scanStep buffer best offset = ((offset : ℤ), correlationAt buffer offset) := by
  unfold scanStep
  rw [if_pos h]

lemma scanStep_neg (buffer : List ℝ) (best : ℤ × ℝ) (offset : ℕ)
    (h : ¬ (correlationAt buffer offset > 0.9 ∧ correlationAt buffer offset > best.2)) :
    scanStep buffer best offset = best := by
  unfold scanStep
  rw [if_neg h]

lemma scan_no_candidate (buffer : List ℝ) :
    ∀ (l : List ℕ) (best : ℤ × ℝ),
      (∀ o ∈ l, ¬ correlationAt buffer o > 0.9) →
      l.foldl (scanStep buffer) best = best := by
  intro l
  induction l with
  | nil => intro best _; rfl
  | cons a as ih =>
    intro best h
    rw [List.foldl_cons,
      scanStep_neg buffer best a (fun hc => h a (List.mem_cons_self a as) hc.1)]
    exact ih best fun o ho => h o (List.mem_cons_of_mem a ho)

lemma scan_invariant (buffer : List ℝ) :
    ∀ (l : List ℕ) (best : ℤ × ℝ),
      best.2 ≤ (l.foldl (scanStep buffer) best).2 ∧
      (∀ o ∈ l, correlationAt buffer o > 0.9 →
        correlationAt buffer o ≤ (l.foldl (scanStep buffer) best).2) ∧
      (l.foldl (scanStep buffer) best = best ∨
        ∃ o ∈ l, l.foldl (scanStep buffer) best =
          ((o : ℤ), correlationAt buffer o) ∧ correlationAt buffer o > 0.9) := by
  intro l
  induction l with
  | nil =>
    intro best
    exact ⟨le_refl _, by simp, Or.inl rfl⟩
  | cons a as ih =>
    intro best
    rw [List.foldl_cons]
    by_cases hc : correlationAt buffer a > 0.9 ∧ correlationAt buffer a > best.2
    · rw [scanStep_pos buffer best a hc]
      obtain ⟨m1, m2, m3⟩ := ih ((a : ℤ), correlationAt buffer a)
      refine ⟨le_trans (le_of_lt hc.2) m1, ?_, ?_⟩
      · intro o ho hgt
        rcases List.mem_cons.mp ho with rfl | ho'
        · exact m1
        · exact m2 o ho' hgt
      · rcases m3 with heq | ⟨o, ho, hre, hgt⟩
        · exact Or.inr ⟨a, List.mem_cons_self a as, heq, hc.1⟩
        · exact Or.inr ⟨o, List.mem_cons_of_mem a ho, hre, hgt⟩
    · rw [scanStep_neg buffer best a hc]
      obtain ⟨m1, m2, m3⟩ := ih best
      refine ⟨m1, ?_, ?_⟩
      · intro o ho hgt
        rcases List.mem_cons.mp ho with rfl | ho'
        · have hle : ¬ correlationAt buffer o > best.2 := fun hgt2 => hc ⟨hgt, hgt2⟩
          exact le_trans (not_lt.mp hle) m1
        · exact m2 o ho' hgt
      · rcases m3 with heq | ⟨o, ho, hre, hgt⟩
        · exact Or.inl heq
        · exact Or.inr ⟨o, List.mem_cons_of_mem a ho, hre, hgt⟩

lemma bestLag_no_candidate (buffer : List ℝ)
    (h : ∀ o ∈ List.range' 20 1004, ¬ correlationAt buffer o > 0.9) :
    bestLag buffer = (-1, 0) :=
  scan_no_candidate buffer (List.range' 20 1004) (-1, 0) h

lemma bestLag_found (buffer : List ℝ)
    (h : ∃ o ∈ List.range' 20 1004, correlationAt buffer o > 0.9) :
    ∃ lag ∈ List.range' 20 1004,
      bestLag buffer = ((lag : ℤ), correlationAt buffer lag) ∧
      correlationAt buffer lag > 0.9 ∧
      ∀ o ∈ List.range' 20 1004, correlationAt buffer o > 0.9 →
        correlationAt buffer o ≤ correlationAt buffer lag := by
  obtain ⟨m1, m2, m3⟩ := scan_invariant buffer (List.range' 20 1004) (-1, 0)
  rcases m3 with heq | ⟨o, ho, hre, hgt⟩
  · exfalso
    obtain ⟨o, ho, hgt⟩ := h
    have hle := m2 o ho hgt
    have heq' : bestLag buffer = (-1, 0) := heq
    rw [show (List.range' 20 1004).foldl (scanStep buffer) (-1, 0) = bestLag buffer
        from rfl, heq'] at hle
    norm_num at hle
    linarith
  · refine ⟨o, ho, hre, hgt, ?_⟩
    intro o' ho' hgt'
    have hle := m2 o' ho' hgt'
    have hre' : bestLag buffer = ((o : ℤ), correlationAt buffer o) := hre
    rw [show (List.range' 20 1004).foldl (scanStep buffer) (-1, 0) = bestLag buffer
        from rfl, hre'] at hle
    exact hle

lemma foldl_sq_replicate_zero :
    ∀ (n : ℕ) (s : ℝ),
      (List.replicate n (0 : ℝ)).foldl (fun acc v => acc + v * v) s = s := by
  intro n
  induction n with
  | zero => intro s; rfl
  | succ m ih =>
    intro s
    rw [List.replicate_succ, List.foldl_cons]
    simpa using ih s

lemma rms_silence : rms (List.replicate 2048 (0 : ℝ)) = 0 := by
  unfold rms
  rw [foldl_sq_replicate_zero, zero_div, Real.sqrt_zero]

/-- C5: the autocorrelation estimator's contract.  A frame whose RMS energy
is below the 0.01 floor — in particular the all-zeros silence frame — yields
no pitch with no further processing.  Otherwise the candidate lags 20…1023
are scanned (at 44100 Hz these bound the supported band, roughly 80–2000
Hz); per lag the normalized autocorrelation `correlationAt` is computed, and
when no lag's correlation exceeds the 0.9 threshold the result is no pitch,
while otherwise a lag whose correlation exceeds the threshold and is
maximal among all such lags is selected and the result is
`sampleRate / lag`. -/
theorem detectPitch_spec :
    (∀ sampleRate : ℝ, detectPitch (List.replicate 2048 0) sampleRate = none) ∧
    (∀ (buffer : List ℝ) (sampleRate : ℝ), rms buffer < 0.01 →
      detectPitch buffer sampleRate = none) ∧
    (∀ (buffer : List ℝ) (sampleRate : ℝ), ¬ rms buffer < 0.01 →
      (∀ o ∈ List.range' 20 1004, ¬ correlationAt buffer o > 0.9) →
      detectPitch buffer sampleRate = none) ∧
    (∀ (buffer : List ℝ) (sampleRate : ℝ), ¬ rms buffer < 0.01 →
      (∃ o ∈ List.range' 20 1004, correlationAt buffer o > 0.9) →
      ∃ lag ∈ List.range' 20 1004,
        correlationAt buffer lag > 0.9 ∧
        (∀ o ∈ List.range' 20 1004, correlationAt buffer o > 0.9 →
          correlationAt buffer o ≤ correlationAt buffer lag) ∧
        detectPitch buffer sampleRate = some (sampleRate / (lag : ℝ))) := by
  have hgate : ∀ (buffer : List ℝ) (sampleRate : ℝ), rms buffer < 0.01 →
      detectPitch buffer sampleRate = none := by
    intro buffer sampleRate h
    unfold detectPitch
    rw [if_pos h]
  refine ⟨?_, hgate, ?_, ?_⟩
  · intro sampleRate
    exact hgate _ _ (by rw [rms_silence]; norm_num)
  · intro buffer sampleRate hrms hnone
    unfold detectPitch
    rw [if_neg hrms, bestLag_no_candidate buffer hnone]
    rfl
  · intro buffer sampleRate hrms hex
    obtain ⟨lag, hmem, hbl, hgt, hmax⟩ := bestLag_found buffer hex
    refine ⟨lag, hmem, hgt, hmax, ?_⟩
    have hlag20 : 20 ≤ lag := (List.mem_range'_1.mp hmem).1
    have hne : ¬ (bestLag buffer).1 = -1 := by
      rw [hbl]
      have : (0 : ℤ) ≤ (lag : ℤ) := Int.natCast_nonneg lag
      omega
    unfold detectPitch
    rw [if_neg hrms, if_neg hne, hbl]
    norm_num

lemma getD_replicate_one (i : ℕ) (h : i < 2048) :
    (List.replicate 2048 (1 : ℝ)).getD i 0 = 1 := by
  rw [List.getD_eq_getElem _ _ (by rw [List.length_replicate]; exact h),
    List.getElem_replicate]

lemma correlationAt_ones (o : ℕ) (h1 : 20 ≤ o) (h2 : o ≤ 1023) :
    correlationAt (List.replicate 2048 (1 : ℝ)) o = 1 := by
  unfold correlationAt
  rw [List.length_replicate]
  have hterm : ∀ i ∈ Finset.range (2048 - o),
      (List.replicate 2048 (1 : ℝ)).getD i 0 *
        (List.replicate 2048 (1 : ℝ)).getD (i + o) 0 = 1 := by
    intro i hi
    rw [Finset.mem_range] at hi
    rw [getD_replicate_one i (by omega), getD_replicate_one (i + o) (by omega),
      mul_one]
  rw [Finset.sum_congr rfl hterm, Finset.sum_const, Finset.card_range,
    nsmul_eq_mul, mul_one]
  have hcast : ((2048 - o : ℕ) : ℝ) = (2048 : ℝ) - (o : ℝ) := by
    rw [Nat.cast_sub (by omega : o ≤ 2048)]
    norm_num
  have hpos : (0 : ℝ) < (2048 : ℝ) - (o : ℝ) := by
    have : (o : ℝ) ≤ 1023 := by exact_mod_cast h2
    linarith
  rw [hcast, show ((2048 : ℕ) : ℝ) = (2048 : ℝ) from by norm_num]
  exact div_self (ne_of_gt hpos)

lemma foldl_sq_replicate_one :
    ∀ (n : ℕ) (s : ℝ),
      (List.replicate n (1 : ℝ)).foldl (fun acc v => acc + v * v) s = s + n := by
  intro n
  induction n with
  | zero => intro s; simp
  | succ m ih =>
    intro s
    rw [List.replicate_succ, List.foldl_cons, ih]
    push_cast
    ring

lemma rms_ones : rms (List.replicate 2048 (1 : ℝ)) = 1 := by
  unfold rms
  rw [foldl_sq_replicate_one, List.length_replicate]
  norm_num

/-- Witness for C5: a constant all-ones frame passes the RMS gate, the lag 20
correlates perfectly, and the estimator indeed returns `sampleRate / lag`
for a maximal qualifying lag. -/
theorem detectPitch_spec_witness :
    ¬ rms (List.replicate 2048 (1 : ℝ)) < 0.01 ∧
    (∃ lag ∈ List.range' 20 1004,
      correlationAt (List.replicate 2048 (1 : ℝ)) lag > 0.9 ∧
      (∀ o ∈ List.range' 20 1004,
        correlationAt (List.replicate 2048 (1 : ℝ)) o > 0.9 →
        correlationAt (List.replicate 2048 (1 : ℝ)) o ≤
          correlationAt (List.replicate 2048 (1 : ℝ)) lag) ∧
      detectPitch (List.replicate 2048 (1 : ℝ)) 44100 = some (44100 / (lag : ℝ))) := by
  have hrms : ¬ rms (List.replicate 2048 (1 : ℝ)) < 0.01 := by
    rw [rms_ones]
    norm_num
  refine ⟨hrms, detectPitch_spec.2.2.2 _ 44100 hrms ⟨20, ?_, ?_⟩⟩
  · exact List.mem_range'_1.mpr ⟨le_refl 20, by norm_num⟩
  · rw [correlationAt_ones 20 (by norm_num) (by norm_num)]
    norm_num

/-- C8 counterexample: after starting a session, a failed microphone
acquisition (permission denied) leaves the session flag `running = true` —
the session stays active, it does not remain idle as the claim states (only
the listening-status signal stays "idle"). -/
theorem capture_failure_not_idle :
    (setup (.error .permissionDenied) (handleStart initialApp)).running = true ∧
    ¬ (setup (.error .permissionDenied) (handleStart initialApp)).running = false := by
  exact ⟨rfl, by simp [setup, handleStart, initialApp]⟩

/-- C8 (amended): when microphone acquisition fails, the rejection is caught
at acquisition and logged exactly once as a distinct setup error (the
per-frame "no pitch" outcome is a plain absent estimate, never an error),
the detect loop never starts, the listening-status signal stays idle, and no
automatic retry occurs; the session itself, however, remains active
(`running = true`) rather than remaining idle. -/
theorem capture_failure_spec (e : CaptureError) :
    (setup (.error e) (handleStart initialApp)).engine.consoleErrors = [e] ∧
    (setup (.error e) (handleStart initialApp)).engine.pitchStatus = PitchStatus.idle ∧
    (setup (.error e) (handleStart initialApp)).engine.detecting = false ∧
    (setup (.error e) (handleStart initialApp)).running = true := by
  exact ⟨rfl, rfl, rfl, rfl⟩

end FluteTrainer
